import Mathlib

/-!
Shallow embedding of the cpn-py occurrence engine
(`src/cpn/cpn_imp.py`) together with the equivalence-quotiented
reachability builder (`src/cpnpy/analysis/reachability.py`), and proofs
about the embedded definitions.

Modelling decisions, in one place:

* Python values that appear as token colors are modelled by the
  inductive type `Val` (integers, booleans, strings, 2-tuples); the
  result of evaluating an expression string may additionally be a
  Python list of such values, modelled by `EvalResult`.
* `eval`/`exec` of expression strings is an external engine from the
  core's viewpoint (spec §4.D): it is modelled as an oracle
  `peval : String → Binding → Except Unit EvalResult` carried by
  `EvaluationContext`.  It is a function, hence deterministic, and has
  no access to the marking, which matches the evaluator contract.
  Concrete scenarios instantiate the oracle with the Python meaning of
  exactly the inscription strings they use.
* A Python exception is modelled with `Except`; where the raising code
  has already mutated the marking in place, the error value carries the
  marking as it stands at the raise, so that partial mutation is
  observable in the model exactly as it is in the implementation.
* `dict` is modelled as an insertion-ordered association list with
  update-in-place-or-append assignment, like CPython dicts.
* `str.split("@+")` and `str.strip()` are modelled directly on the
  character list of the string (`pySplitAtPlus`, `pyStrip`).
* Sorting (`list.sort` / `sorted`) is modelled with
  `List.insertionSort`, which is a stable sort like Python's.
-/

set_option maxRecDepth 8000

/-- Python values used as token colors: integers, booleans, strings and
2-tuples (the color-set variants exercised by the engine). -/
inductive Val where
  | vint : Int → Val
  | vbool : Bool → Val
  | vstr : String → Val
  | vpair : Val → Val → Val
deriving DecidableEq

/-- The result of `eval` on an expression string: either a single value
or a Python list of values (`evaluate_arc` tests `isinstance(val, list)`). -/
inductive EvalResult where
  | single : Val → EvalResult
  | list : List Val → EvalResult
deriving DecidableEq

/-- A binding maps variable names to values (`Dict[str, Any]`). -/
abbrev Binding := List (String × Val)

/-- Python dict assignment `d[x] = v`: update the existing key in place,
else append at the end. -/
def bindingInsert : Binding → String → Val → Binding
  | [], x, v => [(x, v)]
  | (y, w) :: rest, x, v =>
    if y = x then (x, v) :: rest else (y, w) :: bindingInsert rest x v

/-- Lookup in an insertion-ordered association list (Python `d.get`). -/
def lookupAssoc {α : Type} : List (String × α) → String → Option α
  | [], _ => none
  | (k, v) :: rest, p => if k = p then some v else lookupAssoc rest p

/-- Python dict assignment on an association list: replace the entry of
an existing key in place, else append a new entry at the end. -/
def updateAssoc {α : Type} : List (String × α) → String → α → List (String × α)
  | [], p, x => [(p, x)]
  | (k, v) :: rest, p, x =>
    if k = p then (p, x) :: rest else (k, v) :: updateAssoc rest p x

/-- A `Token` is a value together with a timestamp (class `Token`). -/
abbrev Token := Val × Int

/-- A `Multiset` stores a list of token instances (class `Multiset`,
field `tokens`). -/
abbrev MS := List Token

/-- `Multiset.count_value`: the number of instances with that value,
regardless of timestamp. -/
def countValue (m : MS) (v : Val) : Nat :=
  (m.filter (fun tok => decide (tok.1 = v))).length

/-- The descending-timestamp preference used by `Multiset.remove`. -/
def tsGE (a b : Token) : Prop := b.2 ≤ a.2

instance : DecidableRel tsGE := fun a b => inferInstanceAs (Decidable (b.2 ≤ a.2))

instance : IsTotal Token tsGE := ⟨fun a b => (le_total b.2 a.2)⟩

instance : IsTrans Token tsGE := ⟨fun _ _ _ hab hbc => le_trans hbc hab⟩

/-- Python `list.remove(x)`: delete the first element equal to `x`.
(`list.remove` deletes the first structurally equal element, which for
the stable descending sort below is exactly the chosen instance; on a
missing element Python raises, a case `Multiset.remove` never hits
because it only removes elements it has just collected.) -/
def pyListRemove : MS → Token → MS
  | [], _ => []
  | tok :: rest, tr => if tok = tr then rest else tok :: pyListRemove rest tr

/-- `Multiset.remove(token_value, count)`: collect the instances whose
value matches, fail when fewer than `count` of them exist, otherwise
sort the matches by timestamp descending and delete the first `count`
of them from the token list one by one with `list.remove`. -/
def msRemove (m : MS) (v : Val) (count : Nat) : Except Unit MS :=
  let matching := m.filter (fun tok => decide (tok.1 = v))
  if matching.length < count then .error ()
  else
    let toRemove := (matching.insertionSort tsGE).take count
    .ok (toRemove.foldl (fun acc tr => pyListRemove acc tr) m)

/-- `Multiset.__le__`: for each value occurring in the left multiset the
right one must hold at least as many instances; timestamps are not
consulted.  (`Counter` iterates the distinct values of `self`; checking
the inequality once per occurrence is the same boolean.) -/
def msLe (m1 m2 : MS) : Bool :=
  (m1.map (fun tok => tok.1)).all (fun v => countValue m1 v ≤ countValue m2 v)

/-- A `Marking`: place name to multiset (insertion-ordered dict
`_marking`) plus the global clock. -/
structure Marking where
  marking : List (String × MS)
  global_clock : Int
deriving DecidableEq

/-- `Marking.get_multiset`: absent places map to the empty multiset. -/
def Marking.get_multiset (M : Marking) (p : String) : MS :=
  (lookupAssoc M.marking p).getD []

/-- Whether the dict `_marking` holds the key `p`. -/
def Marking.hasPlace (M : Marking) (p : String) : Bool :=
  (lookupAssoc M.marking p).isSome

/-- `Marking.add_tokens`: append one instance per value, all with the
given timestamp, creating the place entry if missing. -/
def Marking.add_tokens (M : Marking) (p : String) (vs : List Val) (ts : Int) : Marking :=
  { M with marking := updateAssoc M.marking p (M.get_multiset p ++ vs.map (fun v => (v, ts))) }

/-- The loop of `Marking.remove_tokens` for a place already present in
the dict: the multiset object is aliased, so every successful removal
is immediately visible; a failing removal raises with the removals so
far kept. -/
def removeLoop (p : String) : Marking → List Val → Except Marking Marking
  | M, [] => .ok M
  | M, v :: vs =>
    match msRemove (M.get_multiset p) v 1 with
    | .error _ => .error M
    | .ok ms => removeLoop p { M with marking := updateAssoc M.marking p ms } vs

/-- `Marking.remove_tokens`: remove one instance per listed value.  For
a present place the loop mutates the aliased multiset (see
`removeLoop`).  For an absent place the loop works on a fresh empty
multiset that is only stored back on success, so any removal fails with
the dict unchanged, and an empty value list stores an empty entry. -/
def Marking.remove_tokens (M : Marking) (p : String) (vs : List Val) : Except Marking Marking :=
  if M.hasPlace p then removeLoop p M vs
  else
    match vs with
    | [] => .ok { M with marking := updateAssoc M.marking p [] }
    | _ :: _ => .error M

/-- All token instances of the marking, in dict-then-list order. -/
def Marking.tokensOf (M : Marking) : MS :=
  M.marking.flatMap (fun pe => pe.2)

/-- The evaluation engine (class `EvaluationContext`): `peval` models
`eval(expr, env, binding)` with the user environment fixed at
construction.  It is deterministic and cannot touch any marking. -/
structure EvaluationContext where
  peval : String → Binding → Except Unit EvalResult

/-- Python truthiness `bool(x)` for the modelled value shapes. -/
def pyTruthy : EvalResult → Bool
  | .single (.vint n) => decide (n ≠ 0)
  | .single (.vbool b) => b
  | .single (.vstr s) => decide (s ≠ "")
  | .single (.vpair _ _) => true
  | .list l => decide (l ≠ [])

/-- `EvaluationContext.evaluate_guard`: a missing guard is `True`; else
the expression string is evaluated and coerced with `bool(...)`. -/
def EvaluationContext.evaluate_guard (ctx : EvaluationContext) (guard_expr : Option String)
    (b : Binding) : Except Unit Bool :=
  match guard_expr with
  | none => .ok true
  | some g =>
    match ctx.peval g b with
    | .error u => .error u
    | .ok r => .ok (pyTruthy r)

/-- Python `s.split("@+")` on the character list: split at every
(non-overlapping, left-to-right) occurrence of the two-character
separator. -/
def pySplitAtPlus : List Char → List (List Char)
  | [] => [[]]
  | [c] => [[c]]
  | c :: c2 :: rest =>
    if c = '@' ∧ c2 = '+' then [] :: pySplitAtPlus rest
    else
      match pySplitAtPlus (c2 :: rest) with
      | [] => [[c]]
      | s :: ss => (c :: s) :: ss

/-- The whitespace caught by Python `str.strip()` (ASCII range). -/
def pySpaceChar (c : Char) : Bool :=
  c == ' ' || c == '\t' || c == '\n' || c == '\r' || c == '\x0b' || c == '\x0c'

/-- Python `s.strip()`: drop leading and trailing whitespace. -/
def pyStrip (s : String) : String :=
  ⟨((s.data.dropWhile pySpaceChar).reverse.dropWhile pySpaceChar).reverse⟩

/-- `isinstance(val, list)` dispatch of `evaluate_arc`: a list result is
returned as is, anything else is wrapped in a one-element list. -/
def listify : EvalResult → List Val
  | .single v => [v]
  | .list l => l

/-- `EvaluationContext.evaluate_arc`: when the expression contains
`"@+"` it is split on every occurrence; the piece before the first
occurrence (stripped) is evaluated to the values and the piece between
the first and second occurrences (stripped) is evaluated to the delay.
Without `"@+"` the whole expression is evaluated and the delay is the
integer `0`. -/
def EvaluationContext.evaluate_arc (ctx : EvaluationContext) (arc_expr : String)
    (b : Binding) : Except Unit (List Val × EvalResult) :=
  match pySplitAtPlus arc_expr.data with
  | e :: d :: _ =>
    match ctx.peval (pyStrip ⟨e⟩) b with
    | .error u => .error u
    | .ok v =>
      match ctx.peval (pyStrip ⟨d⟩) b with
      | .error u => .error u
      | .ok dv => .ok (listify v, dv)
  | _ =>
    match ctx.peval arc_expr b with
    | .error u => .error u
    | .ok v => .ok (listify v, .single (Val.vint 0))

/-- A color set as the engine sees it: the engine only ever reads the
`timed` flag (`place.colorset.timed`); the membership predicate is
never consulted by the occurrence engine. -/
structure ColorSet where
  timed : Bool
deriving DecidableEq

/-- A `Place` has a name and a color set. -/
structure Place where
  name : String
  colorset : ColorSet
deriving DecidableEq

/-- A `Transition` has a name, an optional guard expression string, an
ordered variable list (`variables` in the source; that identifier is
reserved in Lean) and a transition delay (defaulting to 0). -/
structure Transition where
  name : String
  guard_expr : Option String
  vars : List String
  transition_delay : Int
deriving DecidableEq

/-- An arc endpoint is a place or a transition. -/
inductive NetNode where
  | place : Place → NetNode
  | trans : Transition → NetNode
deriving DecidableEq

/-- `isinstance(node, Place)`. -/
def NetNode.isPlace : NetNode → Bool
  | .place _ => true
  | .trans _ => false

/-- `node.name` (both endpoint kinds expose `name`). -/
def NetNode.nodeName : NetNode → String
  | .place p => p.name
  | .trans t => t.name

/-- View an endpoint as a place; output arcs always target a place (the
transition fallback is never reached on them). -/
def NetNode.asPlace : NetNode → Place
  | .place p => p
  | .trans t => { name := t.name, colorset := { timed := false } }

/-- An `Arc` carries its endpoints and an expression string. -/
structure Arc where
  source : NetNode
  target : NetNode
  expression : String
deriving DecidableEq

/-- The net: ordered collections of places, transitions and arcs. -/
structure CPN where
  places : List Place
  transitions : List Transition
  arcs : List Arc

/-- `CPN.get_input_arcs`: arcs from a place into this transition. -/
def CPN.get_input_arcs (net : CPN) (t : Transition) : List Arc :=
  net.arcs.filter (fun a => a.source.isPlace && decide (a.target = NetNode.trans t))

/-- `CPN.get_output_arcs`: arcs from this transition into a place. -/
def CPN.get_output_arcs (net : CPN) (t : Transition) : List Arc :=
  net.arcs.filter (fun a => decide (a.source = NetNode.trans t) && a.target.isPlace)

/-- The number of ready instances of `v`: value equal and timestamp at
most the global clock (the `ready_tokens` list of the enabling check). -/
def readyCount (m : MS) (clock : Int) (v : Val) : Nat :=
  (m.filter (fun tok => decide (tok.1 = v) && decide (tok.2 ≤ clock))).length

/-- The input-arc loop of `CPN._check_enabled_with_binding`: evaluate
each arc, ignore the delay, and demand that every value occurring in
the result has at least as many ready instances in the source place as
it has occurrences. -/
def checkArcs (ctx : EvaluationContext) (M : Marking) (b : Binding) :
    List Arc → Except Unit Bool
  | [] => .ok true
  | a :: rest =>
    match ctx.evaluate_arc a.expression b with
    | .error u => .error u
    | .ok (vals, _) =>
      if vals.all (fun v =>
          decide (vals.count v ≤
            readyCount (M.get_multiset a.source.nodeName) M.global_clock v)) then
        checkArcs ctx M b rest
      else .ok false

/-- `CPN._check_enabled_with_binding`: the guard must evaluate truthy,
then every input arc must pass the ready-token check. -/
def CPN.check_enabled_with_binding (net : CPN) (t : Transition) (M : Marking)
    (ctx : EvaluationContext) (b : Binding) : Except Unit Bool :=
  match ctx.evaluate_guard t.guard_expr b with
  | .error u => .error u
  | .ok g =>
    if !g then .ok false
    else checkArcs ctx M b (net.get_input_arcs t)

/-- The `tried_values` filter of the binding search: iterate the pool in
order, keeping the first occurrence of each value. -/
def firstDedupAux (seen : List Val) : List Val → List Val
  | [] => []
  | v :: vs =>
    if v ∈ seen then firstDedupAux seen vs else v :: firstDedupAux (v :: seen) vs

/-- Distinct candidate values of the pool, first occurrences kept. -/
def firstDedup (l : List Val) : List Val := firstDedupAux [] l

/-- Run a fallible search over a candidate list, returning the first
`some` result (the `for` loop of `_backtrack_binding`). -/
def firstSomeM (f : Val → Except Unit (Option Binding)) :
    List Val → Except Unit (Option Binding)
  | [] => .ok none
  | v :: vs => do
    let r ← f v
    match r with
    | some b => .ok (some b)
    | none => firstSomeM f vs

/-- `CPN._backtrack_binding`: depth-first assignment of each variable in
order to a distinct candidate value; when all variables are bound the
enabling check decides, and the first satisfying binding is returned. -/
def CPN.backtrack_binding (net : CPN) (ctx : EvaluationContext) (t : Transition)
    (M : Marking) : List String → List Val → Binding → Except Unit (Option Binding)
  | [], _pool, pb => do
    let ok ← net.check_enabled_with_binding t M ctx pb
    .ok (if ok then some pb else none)
  | var :: rest, pool, pb =>
    firstSomeM (fun val => net.backtrack_binding ctx t M rest pool (bindingInsert pb var val))
      (firstDedup pool)

/-- The candidate pool of `CPN._find_binding`: ready token values of
every input place, in arc order. -/
def CPN.bindingPool (net : CPN) (t : Transition) (M : Marking) : List Val :=
  (net.get_input_arcs t).flatMap (fun a =>
    ((M.get_multiset a.source.nodeName).filter
        (fun tok => decide (tok.2 ≤ M.global_clock))).map (fun tok => tok.1))

/-- `CPN._find_binding`: search the candidate pool for an enabling
binding of the transition's variables. -/
def CPN.find_binding (net : CPN) (t : Transition) (M : Marking)
    (ctx : EvaluationContext) : Except Unit (Option Binding) :=
  net.backtrack_binding ctx t M t.vars (net.bindingPool t M) []

/-- `CPN.is_enabled`: with no binding supplied, search for one and fail
with `False` when none exists; then run the enabling check. -/
def CPN.is_enabled (net : CPN) (t : Transition) (M : Marking)
    (ctx : EvaluationContext) : Option Binding → Except Unit Bool
  | none =>
    match net.find_binding t M ctx with
    | .error u => .error u
    | .ok none => .ok false
    | .ok (some b) => net.check_enabled_with_binding t M ctx b
  | some b => net.check_enabled_with_binding t M ctx b

/-- `CPN.is_enabled` with the marking object threaded through the call
exactly as the implementation passes it: `_find_binding` and
`_check_enabled_with_binding` only read the marking (`get_multiset`,
`global_clock`, token scans) and call the pure evaluator, so the
marking handed back is the marking handed in.  This form makes the
frame property of `is_enabled` a statable theorem. -/
def CPN.is_enabled_mut (net : CPN) (t : Transition) (M : Marking)
    (ctx : EvaluationContext) (ob : Option Binding) : Except Unit (Bool × Marking) :=
  match ob with
  | none =>
    match net.find_binding t M ctx with
    | .error e => .error e
    | .ok none => .ok (false, M)
    | .ok (some b) =>
      match net.check_enabled_with_binding t M ctx b with
      | .error e => .error e
      | .ok r => .ok (r, M)
  | some b =>
    match net.check_enabled_with_binding t M ctx b with
    | .error e => .error e
    | .ok r => .ok (r, M)

/-- The exception kinds `fire_transition` can surface: no valid binding
(`RuntimeError`), binding not enabling (`RuntimeError`), expression
evaluation raised, `Multiset.remove` underflow (`ValueError`), and a
non-integer delay reaching timestamp arithmetic (`TypeError`). -/
inductive FireErr where
  | noBinding
  | notEnabled
  | evalFailed
  | notEnoughTokens
  | typeFailed
deriving DecidableEq

/-- Using an evaluation result as an integer (`clock + delay`
arithmetic): Python `bool` is an `int`; anything else raises
`TypeError`. -/
def pyAsInt : EvalResult → Except Unit Int
  | .single (.vint n) => .ok n
  | .single (.vbool b) => .ok (if b then 1 else 0)
  | _ => .error ()

/-- Total companion of `pyAsInt`, used to state what a successful
firing produced. -/
def pyAsIntD : EvalResult → Int
  | .single (.vint n) => n
  | .single (.vbool b) => if b then 1 else 0
  | _ => 0

/-- The consume loop of `CPN.fire_transition`: for each input arc,
evaluate the arc and remove the resulting values from the source
place.  An error carries the marking as mutated so far. -/
def consumeArcs (ctx : EvaluationContext) (b : Binding) :
    Marking → List Arc → Except (FireErr × Marking) Marking
  | M, [] => .ok M
  | M, a :: rest =>
    match ctx.evaluate_arc a.expression b with
    | .error _ => .error (.evalFailed, M)
    | .ok (vals, _) =>
      match M.remove_tokens a.source.nodeName vals with
      | .error M' => .error (.notEnoughTokens, M')
      | .ok M' => consumeArcs ctx b M' rest

/-- The inner produce loop of `CPN.fire_transition`: add each value to
the target place, with timestamp `global_clock + transition_delay +
arc_delay` when the place's color set is timed and `0` otherwise. -/
def produceForValues (tdelay : Int) (dv : EvalResult) (pl : Place) :
    Marking → List Val → Except (FireErr × Marking) Marking
  | M, [] => .ok M
  | M, v :: vs =>
    match pyAsInt dv with
    | .error _ => .error (.typeFailed, M)
    | .ok d =>
      let new_timestamp := M.global_clock + tdelay + d
      produceForValues tdelay dv pl
        (M.add_tokens pl.name [v] (if pl.colorset.timed then new_timestamp else 0)) vs

/-- The produce loop of `CPN.fire_transition` over the output arcs. -/
def produceArcs (ctx : EvaluationContext) (b : Binding) (tdelay : Int) :
    Marking → List Arc → Except (FireErr × Marking) Marking
  | M, [] => .ok M
  | M, a :: rest =>
    match ctx.evaluate_arc a.expression b with
    | .error _ => .error (.evalFailed, M)
    | .ok (vals, dv) =>
      match produceForValues tdelay dv a.target.asPlace M vals with
      | .error e => .error e
      | .ok M' => produceArcs ctx b tdelay M' rest

/-- The body of `CPN.fire_transition` once a binding is fixed: re-check
enabling, then consume, then produce. -/
def CPN.fire_with_binding (net : CPN) (t : Transition) (M : Marking)
    (ctx : EvaluationContext) (b : Binding) : Except (FireErr × Marking) Marking :=
  match net.check_enabled_with_binding t M ctx b with
  | .error _ => .error (.evalFailed, M)
  | .ok false => .error (.notEnabled, M)
  | .ok true =>
    match consumeArcs ctx b M (net.get_input_arcs t) with
    | .error e => .error e
    | .ok M1 => produceArcs ctx b t.transition_delay M1 (net.get_output_arcs t)

/-- `CPN.fire_transition`: resolve the binding (searching when none is
supplied), then fire. -/
def CPN.fire_transition (net : CPN) (t : Transition) (M : Marking)
    (ctx : EvaluationContext) : Option Binding → Except (FireErr × Marking) Marking
  | none =>
    match net.find_binding t M ctx with
    | .error _ => .error (.evalFailed, M)
    | .ok none => .error (.noBinding, M)
    | .ok (some b) => net.fire_with_binding t M ctx b
  | some b => net.fire_with_binding t M ctx b

/-- `CPN.advance_global_clock`: collect every token timestamp strictly
above the clock; when any exist, set the clock to their minimum. -/
def advance_global_clock (M : Marking) : Marking :=
  let future_ts := (M.marking.flatMap (fun pe =>
    pe.2.filter (fun tok => decide (M.global_clock < tok.2)))).map (fun tok => tok.2)
  match future_ts with
  | [] => M
  | h :: rest => { M with global_clock := rest.foldl min h }

/-- All assignments of the listed variables (in order) to values of the
candidate pool, in depth-first order. -/
def assignmentsAux (pool : List Val) : List String → Binding → List Binding
  | [], pb => [pb]
  | var :: rest, pb =>
    pool.flatMap (fun val => assignmentsAux pool rest (bindingInsert pb var val))

/-- Keep the assignments that pass the enabling check, evaluation errors
propagating. -/
def filterEnabledBindings (net : CPN) (t : Transition) (M : Marking)
    (ctx : EvaluationContext) : List Binding → Except Unit (List Binding)
  | [] => .ok []
  | b :: bs => do
    let ok ← net.check_enabled_with_binding t M ctx b
    let rest ← filterEnabledBindings net t M ctx bs
    .ok (if ok then b :: rest else rest)

/-- Modelled from the spec: `CPN._find_all_bindings` is defined in
`cpnpy/cpn/cpn_imp.py`, which is not among the source files (only its
callers in the reachability builders are).  Per spec §4.F.2 it is the
complete-enumeration variant of the binding search: it exhaustively
enumerates assignments of each transition variable (in order) to
distinct values of the same ready-token candidate pool that
`_find_binding` uses, and returns every assignment that passes the
enabling check of §4.F.1. -/
def CPN.find_all_bindings (net : CPN) (t : Transition) (M : Marking)
    (ctx : EvaluationContext) : Except Unit (List Binding) :=
  filterEnabledBindings net t M ctx
    (assignmentsAux (firstDedup (net.bindingPool t M)) t.vars [])

/-- Python string comparison (code-point lexicographic) on character
lists, as used by `sorted`. -/
def charListLe : List Char → List Char → Bool
  | [], _ => true
  | _ :: _, [] => false
  | c :: cs, d :: ds => if c = d then charListLe cs ds else decide (c.toNat < d.toNat)

/-- An arbitrary rank separating the value shapes; Python would raise on
comparing values of different types, which the embedded scenarios never
do. -/
def valRank : Val → Nat
  | .vint _ => 0
  | .vbool _ => 1
  | .vstr _ => 2
  | .vpair _ _ => 3

/-- Python comparison of token values as `sorted` uses it: integers by
value, booleans as 0/1, strings lexicographically, tuples
lexicographically. -/
def valLeB : Val → Val → Bool
  | .vint a, .vint b => decide (a ≤ b)
  | .vbool a, .vbool b => !a || b
  | .vstr a, .vstr b => charListLe a.data b.data
  | .vpair a c, .vpair b d => if a = b then valLeB c d else valLeB a b
  | x, y => decide (valRank x ≤ valRank y)

/-- Python comparison of `(value, timestamp)` tuples. -/
def tokenLeB (a b : Token) : Bool :=
  if a.1 = b.1 then decide (a.2 ≤ b.2) else valLeB a.1 b.1

/-- The key type of the default marking equivalence. -/
abbrev MKey := Int × List (String × List Token)

/-- The key type of the default binding equivalence. -/
abbrev BKey := List (String × Val)

/-- `equiv_marking_to_key` (the default marking equivalence of the
reachability builder): the global clock together with the places sorted
by name, each place carrying its `(value, timestamp)` pairs sorted. -/
def equiv_marking_to_key (M : Marking) : MKey :=
  (M.global_clock,
   (M.marking.insertionSort (fun a b => charListLe a.1.data b.1.data = true)).map
     (fun pe => (pe.1, pe.2.insertionSort (fun a b => tokenLeB a b = true))))

/-- `equiv_binding` (the default binding equivalence): the binding's
items sorted by variable name. -/
def equiv_binding (b : Binding) : BKey :=
  b.insertionSort (fun x y => charListLe x.1.data y.1.data = true)

/-- The reachability graph: nodes keyed by marking-equivalence keys and
carrying the representative marking; edges carrying the transition name
and the canonical binding key.  `networkx.DiGraph` stores at most one
edge per ordered node pair. -/
structure RGraph where
  nodes : List (MKey × Marking)
  edges : List (MKey × MKey × String × BKey)

/-- `DiGraph.add_edge`: overwrite the attributes of an existing edge for
the pair, else append a new edge. -/
def addEdge (edges : List (MKey × MKey × String × BKey)) (u v : MKey) (tn : String)
    (bk : BKey) : List (MKey × MKey × String × BKey) :=
  if edges.any (fun e => decide (e.1 = u) && decide (e.2.1 = v)) then
    edges.map (fun e => if e.1 = u ∧ e.2.1 = v then (u, v, tn, bk) else e)
  else edges ++ [(u, v, tn, bk)]

/-- Node lookup (`RG.nodes[key]` attribute access). -/
def lookupNode : List (MKey × Marking) → MKey → Option Marking
  | [], _ => none
  | (k, m) :: rest, ck => if k = ck then some m else lookupNode rest ck

/-- The BFS bookkeeping of `build_reachability_graph`: the graph, the
visited key set and the FIFO queue. -/
structure RGState where
  graph : RGraph
  visited : List MKey
  queue : List MKey

/-- All `(transition, binding)` pairs enabled in the marking, in
transition order (the nested loops over `cpn.transitions` and
`_find_all_bindings`). -/
def enabledPairsAux (net : CPN) (M : Marking) (ctx : EvaluationContext) :
    List Transition → Except Unit (List (Transition × Binding))
  | [] => .ok []
  | t :: ts => do
    let bs ← net.find_all_bindings t M ctx
    let rest ← enabledPairsAux net M ctx ts
    .ok (bs.map (fun b => (t, b)) ++ rest)

/-- The successor loop of the BFS: fire each enabled pair on a copy of
the current marking (copying is value semantics here), enroll unseen
keys, and add the labeled edge.  A firing exception would crash the
Python builder, modelled by `none`. -/
def expandPairs (net : CPN) (ctx : EvaluationContext) (mkey : Marking → MKey)
    (bkey : Binding → BKey) (ck : MKey) (m : Marking) :
    RGState → List (Transition × Binding) → Option RGState
  | st, [] => some st
  | st, (t, b) :: rest =>
    match net.fire_transition t m ctx (some b) with
    | .error _ => none
    | .ok succ =>
      let sk := mkey succ
      let st1 := if sk ∈ st.visited then st
                 else { graph := { nodes := st.graph.nodes ++ [(sk, succ)],
                                   edges := st.graph.edges },
                        visited := st.visited ++ [sk],
                        queue := st.queue ++ [sk] }
      let st2 := { st1 with graph := { st1.graph with
                     edges := addEdge st1.graph.edges ck sk t.name (bkey b) } }
      expandPairs net ctx mkey bkey ck m st2 rest

/-- One dequeue of the BFS: recover the marking of the dequeued key,
collect the enabled pairs; when none exist, advance the global clock of
the stored marking in place and collect again if the clock moved; then
expand the successors.  `fuel` bounds the number of dequeues (the
Python loop is unbounded); `none` means the fuel ran out or the build
crashed. -/
def rgLoop (net : CPN) (ctx : EvaluationContext) (mkey : Marking → MKey)
    (bkey : Binding → BKey) : Nat → RGState → Option RGraph
  | 0, _ => none
  | fuel + 1, st =>
    match st.queue with
    | [] => some st.graph
    | ck :: restq =>
      match lookupNode st.graph.nodes ck with
      | none => none
      | some m0 =>
        match enabledPairsAux net m0 ctx net.transitions with
        | .error _ => none
        | .ok ets =>
          let stq : RGState := { st with queue := restq }
          if ets.isEmpty then
            let m1 := advance_global_clock m0
            if m0.global_clock < m1.global_clock then
              let stq2 : RGState := { stq with graph := { stq.graph with
                nodes := stq.graph.nodes.map (fun ne => if ne.1 = ck then (ck, m1) else ne) } }
              match enabledPairsAux net m1 ctx net.transitions with
              | .error _ => none
              | .ok ets2 =>
                match expandPairs net ctx mkey bkey ck m1 stq2 ets2 with
                | none => none
                | some st2 => rgLoop net ctx mkey bkey fuel st2
            else rgLoop net ctx mkey bkey fuel stq
          else
            match expandPairs net ctx mkey bkey ck m0 stq ets with
            | none => none
            | some st2 => rgLoop net ctx mkey bkey fuel st2

/-- `build_reachability_graph` of `cpnpy/analysis/reachability.py`,
parameterized over the two equivalence-key functions, BFS from the
initial marking. -/
def build_reachability_graph (net : CPN) (initial : Marking) (ctx : EvaluationContext)
    (mkey : Marking → MKey) (bkey : Binding → BKey) (fuel : Nat) : Option RGraph :=
  let ik := mkey initial
  rgLoop net ctx mkey bkey fuel
    { graph := { nodes := [(ik, initial)], edges := [] }, visited := [ik], queue := [ik] }

/-- Variable lookup in a binding, raising `NameError` when unbound (the
behaviour of `eval` for a free variable). -/
def lookupVar (b : Binding) (x : String) : Except Unit Val :=
  match lookupAssoc b x with
  | some v => .ok v
  | none => .error ()

/-- An untimed integer color set (`colset INT = int;`). -/
def intCS : ColorSet := { timed := false }

/-- A timed integer color set (`colset INT = int timed;`). -/
def timedCS : ColorSet := { timed := true }

/-- Scenario S5, place `P1`. -/
def s5P1 : Place := { name := "P1", colorset := intCS }

/-- Scenario S5, place `P2`. -/
def s5P2 : Place := { name := "P2", colorset := intCS }

/-- Scenario S5, transition `T` with guard `x < 5` and variable `x`. -/
def s5T : Transition :=
  { name := "T", guard_expr := some "x < 5", vars := ["x"], transition_delay := 0 }

/-- Scenario S5: the counter net of the reachability example. -/
def s5net : CPN :=
  { places := [s5P1, s5P2], transitions := [s5T],
    arcs := [{ source := .place s5P1, target := .trans s5T, expression := "x" },
             { source := .trans s5T, target := .place s5P2, expression := "x+1" }] }

/-- Scenario S5: initial marking `P1 = [0, 1, 2, 3, 4]`, all timestamps 0. -/
def s5M0 : Marking :=
  { marking := [("P1", [(.vint 0, 0), (.vint 1, 0), (.vint 2, 0), (.vint 3, 0), (.vint 4, 0)])],
    global_clock := 0 }

/-- Scenario S5's evaluator: the Python meaning of the three expression
strings the net contains, under an integer binding for `x`. -/
def s5ctx : EvaluationContext :=
  { peval := fun e b =>
      if e = "x" then do
        let v ← lookupVar b "x"
        .ok (.single v)
      else if e = "x+1" then do
        let v ← lookupVar b "x"
        match v with
        | .vint n => .ok (.single (.vint (n + 1)))
        | _ => .error ()
      else if e = "x < 5" then do
        let v ← lookupVar b "x"
        match v with
        | .vint n => .ok (.single (.vbool (decide (n < 5))))
        | _ => .error ()
      else .error () }

/-- The S5 reachability graph with ample fuel (the BFS dequeues one node
per unit of fuel and the state space is small). -/
def s5graph : Option RGraph :=
  build_reachability_graph s5net s5M0 s5ctx equiv_marking_to_key equiv_binding 100

/-- A net whose single output arc expression fails to evaluate: place
`P` feeds `T` via `x`, and `T` feeds `Q` via the unevaluable `boom`. -/
def cxP : Place := { name := "P", colorset := intCS }

/-- Output place of the failing net. -/
def cxQ : Place := { name := "Q", colorset := intCS }

/-- Guardless unary transition of the failing net. -/
def cxT : Transition :=
  { name := "T", guard_expr := none, vars := ["x"], transition_delay := 0 }

/-- The failing net of the atomicity counterexample. -/
def cxnet : CPN :=
  { places := [cxP, cxQ], transitions := [cxT],
    arcs := [{ source := .place cxP, target := .trans cxT, expression := "x" },
             { source := .trans cxT, target := .place cxQ, expression := "boom" }] }

/-- One ready token in `P`. -/
def cxM0 : Marking := { marking := [("P", [(.vint 1, 0)])], global_clock := 0 }

/-- The failing net's evaluator: `x` is the bound variable; `boom`
raises (an undefined name). -/
def cxctx : EvaluationContext :=
  { peval := fun e b =>
      if e = "x" then do
        let v ← lookupVar b "x"
        .ok (.single v)
      else .error () }

/-- The marking left behind by the failed firing: the input token is
gone and nothing was produced. -/
def cxMpartial : Marking := { marking := [("P", [])], global_clock := 0 }

/-- Evaluator for the arc-splitting counterexample: `x` and `1` are the
fragments the implementation evaluates; the claim's right-hand fragment
`1 @+ 2` is not a Python expression and raises `SyntaxError`. -/
def c7ctx : EvaluationContext :=
  { peval := fun e _ =>
      if e = "x" then .ok (.single (.vint 7))
      else if e = "1" then .ok (.single (.vint 1))
      else .error () }

/-- Python `"@+".join(parts)`, to rebuild everything right of the first
separator occurrence. -/
def joinAtPlus : List (List Char) → List Char
  | [] => []
  | [s] => s
  | s :: rest => s ++ '@' :: '+' :: joinAtPlus rest

/-- The claim's reading of `evaluate_arc`, stated from the spec's words
for comparison with the source's `evaluate_arc`: the expression is
split at the FIRST occurrence of the separator and the WHOLE remainder
to its right is the delay expression. -/
def evaluate_arc_first_split (ctx : EvaluationContext) (arc_expr : String)
    (b : Binding) : Except Unit (List Val × EvalResult) :=
  match pySplitAtPlus arc_expr.data with
  | e :: d :: ds => do
    let v ← ctx.peval (pyStrip ⟨e⟩) b
    let dv ← ctx.peval (pyStrip ⟨joinAtPlus (d :: ds)⟩) b
    .ok (listify v, dv)
  | _ => do
    let v ← ctx.peval arc_expr b
    .ok (listify v, .single (Val.vint 0))

/-- Timed place `P` of the witness net (the example net of the source's
`__main__` block, simplified to integer tokens). -/
def wP : Place := { name := "P", colorset := timedCS }

/-- Timed place `Q` of the witness net. -/
def wQ : Place := { name := "Q", colorset := timedCS }

/-- Transition `T` of the witness net: guard `x > 10`, variable `x`,
transition delay 2. -/
def wT : Transition :=
  { name := "T", guard_expr := some "x > 10", vars := ["x"], transition_delay := 2 }

/-- The witness net: `P --x--> T --x @+5--> Q`. -/
def wnet : CPN :=
  { places := [wP, wQ], transitions := [wT],
    arcs := [{ source := .place wP, target := .trans wT, expression := "x" },
             { source := .trans wT, target := .place wQ, expression := "x @+5" }] }

/-- Witness marking: `P = [5, 12]` at timestamp 0, clock 0. -/
def wM0 : Marking :=
  { marking := [("P", [(.vint 5, 0), (.vint 12, 0)])], global_clock := 0 }

/-- The witness evaluator: Python meaning of the fragments `x`, `5` and
`x > 10`. -/
def wctx : EvaluationContext :=
  { peval := fun e b =>
      if e = "x" then do
        let v ← lookupVar b "x"
        .ok (.single v)
      else if e = "5" then .ok (.single (.vint 5))
      else if e = "x > 10" then do
        let v ← lookupVar b "x"
        match v with
        | .vint n => .ok (.single (.vbool (decide (10 < n))))
        | _ => .error ()
      else .error () }

/-- The enabling binding `x = 12` of the witness net. -/
def wb : Binding := [("x", Val.vint 12)]

/-- The witness marking after consumption: token 12 removed from `P`. -/
def wMc : Marking := { marking := [("P", [(.vint 5, 0)])], global_clock := 0 }

/-- The witness marking after firing: `P = [5]`, `Q = [12 at time 7]`. -/
def wM1 : Marking :=
  { marking := [("P", [(.vint 5, 0)]), ("Q", [(.vint 12, 7)])], global_clock := 0 }

deriving instance DecidableEq for Except

/-- Reassign every token's timestamp by `f`, keeping the values: used to
state that an operation ignores timestamps. -/
def retime (f : Int → Int) (m : MS) : MS :=
  m.map (fun tok => (tok.1, f tok.2))

/-- Whether a character list contains an occurrence of the separator
`"@+"`. -/
def hasAtPlus : List Char → Bool
  | [] => false
  | [_] => false
  | c :: c2 :: rest => (decide (c = '@') && decide (c2 = '+')) || hasAtPlus (c2 :: rest)

theorem lookupAssoc_updateAssoc {α : Type} (l : List (String × α)) (p q : String) (x : α) :
    lookupAssoc (updateAssoc l p x) q = if p = q then some x else lookupAssoc l q := by
  induction l with
  | nil => simp [updateAssoc, lookupAssoc]
  | cons kv rest ih =>
    obtain ⟨k, w⟩ := kv
    by_cases hkp : k = p
    · subst hkp
      simp only [updateAssoc, if_pos rfl, lookupAssoc]
      by_cases hkq : k = q
      · subst hkq; simp [lookupAssoc]
      · simp [lookupAssoc, hkq, if_neg hkq]
    · simp only [updateAssoc, if_neg hkp, lookupAssoc]
      by_cases hkq : k = q
      · subst hkq
        have : ¬p = k := fun h => hkp h.symm
        simp [this]
      · simp [hkq, ih]

theorem get_multiset_add_tokens (M : Marking) (p : String) (vs : List Val) (ts : Int)
    (q : String) :
    (M.add_tokens p vs ts).get_multiset q =
      M.get_multiset q ++ (if p = q then vs.map (fun v => (v, ts)) else []) := by
  unfold Marking.add_tokens Marking.get_multiset
  simp only [lookupAssoc_updateAssoc]
  by_cases hpq : p = q
  · subst hpq; simp
  · simp [hpq]

theorem add_tokens_clock (M : Marking) (p : String) (vs : List Val) (ts : Int) :
    (M.add_tokens p vs ts).global_clock = M.global_clock := rfl

theorem removeLoop_ok_clock (p : String) :
    ∀ (vs : List Val) (M M' : Marking), removeLoop p M vs = .ok M' →
      M'.global_clock = M.global_clock := by
  intro vs
  induction vs with
  | nil => intro M M' h; cases h; rfl
  | cons v vs ih =>
    intro M M' h
    simp only [removeLoop] at h
    cases hr : msRemove (M.get_multiset p) v 1 with
    | error e => simp [hr] at h
    | ok ms =>
      simp only [hr] at h
      exact (ih _ _ h).trans rfl

theorem remove_tokens_ok_clock (M : Marking) (p : String) (vs : List Val) (M' : Marking) :
    M.remove_tokens p vs = .ok M' → M'.global_clock = M.global_clock := by
  intro h
  unfold Marking.remove_tokens at h
  by_cases hp : M.hasPlace p
  · rw [if_pos hp] at h; exact removeLoop_ok_clock p vs M M' h
  · rw [if_neg hp] at h
    cases vs with
    | nil => cases h; rfl
    | cons v vs => cases h

theorem consumeArcs_ok_clock (ctx : EvaluationContext) (b : Binding) :
    ∀ (arcs : List Arc) (M M' : Marking), consumeArcs ctx b M arcs = .ok M' →
      M'.global_clock = M.global_clock := by
  intro arcs
  induction arcs with
  | nil => intro M M' h; cases h; rfl
  | cons a rest ih =>
    intro M M' h
    simp only [consumeArcs] at h
    cases he : ctx.evaluate_arc a.expression b with
    | error e => simp [he] at h
    | ok vd =>
      obtain ⟨vals, dv⟩ := vd
      simp only [he] at h
      cases hr : M.remove_tokens a.source.nodeName vals with
      | error m => simp [hr] at h
      | ok M1 =>
        simp only [hr] at h
        rw [ih M1 M' h, remove_tokens_ok_clock M _ _ M1 hr]

theorem produceForValues_ok_clock (tdelay : Int) (dv : EvalResult) (pl : Place) :
    ∀ (vs : List Val) (M M' : Marking), produceForValues tdelay dv pl M vs = .ok M' →
      M'.global_clock = M.global_clock := by
  intro vs
  induction vs with
  | nil => intro M M' h; cases h; rfl
  | cons v vs ih =>
    intro M M' h
    simp only [produceForValues] at h
    cases hd : pyAsInt dv with
    | error e => simp [hd] at h
    | ok d =>
      simp only [hd] at h
      exact (ih _ _ h).trans rfl

theorem produceArcs_ok_clock (ctx : EvaluationContext) (b : Binding) (tdelay : Int) :
    ∀ (arcs : List Arc) (M M' : Marking), produceArcs ctx b tdelay M arcs = .ok M' →
      M'.global_clock = M.global_clock := by
  intro arcs
  induction arcs with
  | nil => intro M M' h; cases h; rfl
  | cons a rest ih =>
    intro M M' h
    simp only [produceArcs] at h
    cases he : ctx.evaluate_arc a.expression b with
    | error e => simp [he] at h
    | ok vd =>
      obtain ⟨vals, dv⟩ := vd
      simp only [he] at h
      cases hp : produceForValues tdelay dv a.target.asPlace M vals with
      | error e => simp [hp] at h
      | ok M1 =>
        simp only [hp] at h
        rw [ih M1 M' h, produceForValues_ok_clock tdelay dv a.target.asPlace vals M M1 hp]

/-- C10: whenever `is_enabled` returns (with or without a supplied
binding, evaluation succeeding), the marking it hands back is exactly
the marking it was given: the enabling check and the binding search
never mutate any place or the global clock. -/
theorem is_enabled_preserves_marking (net : CPN) (t : Transition) (M : Marking)
    (ctx : EvaluationContext) (ob : Option Binding) (r : Bool) (M' : Marking) :
    net.is_enabled_mut t M ctx ob = .ok (r, M') → M' = M := by
  intro h
  unfold CPN.is_enabled_mut at h
  cases ob with
  | none =>
    cases hf : net.find_binding t M ctx with
    | error e => simp [hf] at h
    | ok o =>
      cases o with
      | none =>
        simp only [hf, Except.ok.injEq, Prod.mk.injEq] at h
        exact h.2.symm
      | some b =>
        cases hc : net.check_enabled_with_binding t M ctx b with
        | error e => simp [hf, hc] at h
        | ok r2 =>
          simp only [hf, hc, Except.ok.injEq, Prod.mk.injEq] at h
          exact h.2.symm
  | some b =>
    cases hc : net.check_enabled_with_binding t M ctx b with
    | error e => simp [hc] at h
    | ok r2 =>
      simp only [hc, Except.ok.injEq, Prod.mk.injEq] at h
      exact h.2.symm

/-- C10 witness: the enabling query of the witness net returns the
marking unchanged. -/
theorem is_enabled_preserves_marking_witness :
    wnet.is_enabled_mut wT wM0 wctx (some wb) = .ok (true, wM0) ∧ wM0 = wM0 :=
  ⟨rfl, is_enabled_preserves_marking wnet wT wM0 wctx (some wb) true wM0 rfl⟩

theorem fire_with_binding_ok_clock (net : CPN) (t : Transition) (M : Marking)
    (ctx : EvaluationContext) (b : Binding) (M' : Marking) :
    net.fire_with_binding t M ctx b = .ok M' → M'.global_clock = M.global_clock := by
  intro h
  unfold CPN.fire_with_binding at h
  cases hc : net.check_enabled_with_binding t M ctx b with
  | error e => simp [hc] at h
  | ok g =>
    cases g with
    | false => simp [hc] at h
    | true =>
      simp only [hc] at h
      cases hcons : consumeArcs ctx b M (net.get_input_arcs t) with
      | error e => simp [hcons] at h
      | ok M1 =>
        simp only [hcons] at h
        rw [produceArcs_ok_clock ctx b t.transition_delay (net.get_output_arcs t) M1 M' h,
          consumeArcs_ok_clock ctx b (net.get_input_arcs t) M M1 hcons]

/-- C9: a successful firing never changes the global clock. -/
theorem fire_preserves_clock (net : CPN) (t : Transition) (M : Marking)
    (ctx : EvaluationContext) (ob : Option Binding) (M' : Marking) :
    net.fire_transition t M ctx ob = .ok M' → M'.global_clock = M.global_clock := by
  intro h
  unfold CPN.fire_transition at h
  cases ob with
  | none =>
    cases hf : net.find_binding t M ctx with
    | error e => simp [hf] at h
    | ok o =>
      cases o with
      | none => simp [hf] at h
      | some b =>
        simp only [hf] at h
        exact fire_with_binding_ok_clock net t M ctx b M' h
  | some b => exact fire_with_binding_ok_clock net t M ctx b M' h

/-- C9 witness: firing the witness net leaves the clock at 0. -/
theorem fire_preserves_clock_witness :
    wnet.fire_transition wT wM0 wctx (some wb) = .ok wM1 ∧
    wM1.global_clock = wM0.global_clock :=
  ⟨rfl, fire_preserves_clock wnet wT wM0 wctx (some wb) wM1 rfl⟩

theorem consumeArcs_error_kind (ctx : EvaluationContext) (b : Binding) :
    ∀ (arcs : List Arc) (M : Marking) (e : FireErr) (Mx : Marking),
      consumeArcs ctx b M arcs = .error (e, Mx) →
      e = .evalFailed ∨ e = .notEnoughTokens := by
  intro arcs
  induction arcs with
  | nil => intro M e Mx h; cases h
  | cons a rest ih =>
    intro M e Mx h
    simp only [consumeArcs] at h
    cases he : ctx.evaluate_arc a.expression b with
    | error u =>
      simp only [he, Except.error.injEq, Prod.mk.injEq] at h
      exact Or.inl h.1.symm
    | ok vd =>
      obtain ⟨vals, dv⟩ := vd
      simp only [he] at h
      cases hr : M.remove_tokens a.source.nodeName vals with
      | error m =>
        simp only [hr, Except.error.injEq, Prod.mk.injEq] at h
        exact Or.inr h.1.symm
      | ok M1 =>
        simp only [hr] at h
        exact ih M1 e Mx h

theorem produceForValues_error_kind (tdelay : Int) (dv : EvalResult) (pl : Place) :
    ∀ (vs : List Val) (M : Marking) (e : FireErr) (Mx : Marking),
      produceForValues tdelay dv pl M vs = .error (e, Mx) → e = .typeFailed := by
  intro vs
  induction vs with
  | nil => intro M e Mx h; cases h
  | cons v vs ih =>
    intro M e Mx h
    simp only [produceForValues] at h
    cases hd : pyAsInt dv with
    | error u =>
      simp only [hd, Except.error.injEq, Prod.mk.injEq] at h
      exact h.1.symm
    | ok d =>
      simp only [hd] at h
      exact ih _ e Mx h

theorem produceArcs_error_kind (ctx : EvaluationContext) (b : Binding) (tdelay : Int) :
    ∀ (arcs : List Arc) (M : Marking) (e : FireErr) (Mx : Marking),
      produceArcs ctx b tdelay M arcs = .error (e, Mx) →
      e = .evalFailed ∨ e = .typeFailed := by
  intro arcs
  induction arcs with
  | nil => intro M e Mx h; cases h
  | cons a rest ih =>
    intro M e Mx h
    simp only [produceArcs] at h
    cases he : ctx.evaluate_arc a.expression b with
    | error u =>
      simp only [he, Except.error.injEq, Prod.mk.injEq] at h
      exact Or.inl h.1.symm
    | ok vd =>
      obtain ⟨vals, dv⟩ := vd
      simp only [he] at h
      cases hp : produceForValues tdelay dv a.target.asPlace M vals with
      | error e2 =>
        obtain ⟨e2e, e2m⟩ := e2
        simp only [hp, Except.error.injEq, Prod.mk.injEq] at h
        exact Or.inr (h.1 ▸ produceForValues_error_kind tdelay dv a.target.asPlace vals M e2e e2m hp)
      | ok M1 =>
        simp only [hp] at h
        exact ih M1 e Mx h

theorem fire_with_binding_pre_mutation (net : CPN) (t : Transition) (M : Marking)
    (ctx : EvaluationContext) (b : Binding) (e : FireErr) (Mx : Marking) :
    net.fire_with_binding t M ctx b = .error (e, Mx) →
    e = .noBinding ∨ e = .notEnabled → Mx = M := by
  intro h he
  unfold CPN.fire_with_binding at h
  cases hc : net.check_enabled_with_binding t M ctx b with
  | error u =>
    simp only [hc, Except.error.injEq, Prod.mk.injEq] at h
    exact h.2.symm
  | ok g =>
    cases g with
    | false =>
      simp only [hc, Except.error.injEq, Prod.mk.injEq] at h
      exact h.2.symm
    | true =>
      simp only [hc] at h
      cases hcons : consumeArcs ctx b M (net.get_input_arcs t) with
      | error em =>
        obtain ⟨e1, M1⟩ := em
        simp only [hcons, Except.error.injEq, Prod.mk.injEq] at h
        have := consumeArcs_error_kind ctx b (net.get_input_arcs t) M e1 M1 hcons
        rw [h.1] at this
        rcases he with he | he <;> rcases this with hk | hk <;> rw [he] at hk <;> cases hk
      | ok M1 =>
        simp only [hcons] at h
        have := produceArcs_error_kind ctx b t.transition_delay (net.get_output_arcs t) M1 e Mx h
        rcases he with he | he <;> rcases this with hk | hk <;> rw [he] at hk <;> cases hk

/-- C1 (amended): when `fire_transition` raises because no binding was
found or because the binding fails the enabling re-check, the marking
is completely unchanged; these errors are raised before any mutation.
(The original claim also covered evaluation errors raised during
firing; those are raised after the consume loop has already mutated the
marking — see the counterexample.) -/
theorem fire_error_pre_mutation (net : CPN) (t : Transition) (M : Marking)
    (ctx : EvaluationContext) (ob : Option Binding) (e : FireErr) (Mx : Marking) :
    net.fire_transition t M ctx ob = .error (e, Mx) →
    e = .noBinding ∨ e = .notEnabled → Mx = M := by
  intro h he
  unfold CPN.fire_transition at h
  cases ob with
  | none =>
    cases hf : net.find_binding t M ctx with
    | error u =>
      simp only [hf, Except.error.injEq, Prod.mk.injEq] at h
      exact h.2.symm
    | ok o =>
      cases o with
      | none =>
        simp only [hf, Except.error.injEq, Prod.mk.injEq] at h
        exact h.2.symm
      | some b =>
        simp only [hf] at h
        exact fire_with_binding_pre_mutation net t M ctx b e Mx h he
  | some b => exact fire_with_binding_pre_mutation net t M ctx b e Mx h he

/-- C1 witness: firing with no token available raises `NoBindingFound`
and leaves the marking unchanged. -/
theorem fire_error_pre_mutation_witness :
    cxnet.fire_transition cxT { marking := [("P", [])], global_clock := 0 } cxctx none =
      .error (.noBinding, { marking := [("P", [])], global_clock := 0 }) ∧
    ({ marking := [("P", [])], global_clock := 0 } : Marking) =
      { marking := [("P", [])], global_clock := 0 } :=
  ⟨rfl,
   fire_error_pre_mutation cxnet cxT { marking := [("P", [])], global_clock := 0 } cxctx none
     .noBinding { marking := [("P", [])], global_clock := 0 } rfl (Or.inl rfl)⟩

/-- C1 counterexample: in the net `P --x--> T --boom--> Q` with one
token in `P`, the enabling check passes (it never looks at output
arcs), the consume loop removes the token, and only then does the
output-arc evaluation raise — the error leaves a marking that differs
from the initial one, so a firing error caused by expression evaluation
does mutate the marking. -/
theorem fire_partial_mutation_cex :
    cxnet.fire_transition cxT cxM0 cxctx (some [("x", Val.vint 1)]) =
      .error (.evalFailed, cxMpartial) ∧ cxMpartial ≠ cxM0 :=
  ⟨rfl, by decide⟩

theorem checkArcs_ok_true_iff (ctx : EvaluationContext) (M : Marking) (b : Binding) :
    ∀ arcs : List Arc, checkArcs ctx M b arcs = .ok true ↔
      ∀ a ∈ arcs, ∃ vals dv, ctx.evaluate_arc a.expression b = .ok (vals, dv) ∧
        ∀ v ∈ vals, vals.count v ≤
          readyCount (M.get_multiset a.source.nodeName) M.global_clock v := by
  intro arcs
  induction arcs with
  | nil => simp [checkArcs]
  | cons a rest ih =>
    simp only [checkArcs]
    cases he : ctx.evaluate_arc a.expression b with
    | error u =>
      dsimp only
      constructor
      · intro h; cases h
      · intro h
        obtain ⟨vals, dv, hev, -⟩ := h a (List.mem_cons_self a rest)
        rw [he] at hev
        cases hev
    | ok vd =>
      obtain ⟨vals, dv⟩ := vd
      dsimp only
      by_cases hall : vals.all (fun v => decide (vals.count v ≤
          readyCount (M.get_multiset a.source.nodeName) M.global_clock v)) = true
      · rw [if_pos hall, ih]
        constructor
        · intro h a2 ha2
          rcases List.mem_cons.mp ha2 with rfl | ha2
          · refine ⟨vals, dv, he, ?_⟩
            intro v hv
            exact of_decide_eq_true (List.all_eq_true.mp hall v hv)
          · exact h a2 ha2
        · intro h a2 ha2
          exact h a2 (List.mem_cons_of_mem a ha2)
      · rw [if_neg hall]
        constructor
        · intro h; simp at h
        · intro h
          obtain ⟨vals2, dv2, hev, hcount⟩ := h a (List.mem_cons_self a rest)
          rw [he] at hev
          cases hev
          exact absurd (List.all_eq_true.mpr fun v hv => decide_eq_true (hcount v hv)) hall

/-- C2: `is_enabled` with a supplied binding returns `ok true` exactly
when the guard evaluates to true under the binding and, for every input
arc and every value the arc expression evaluates to, the source place
holds at least as many instances of that value with timestamp at most
the global clock as the arc demands; the arc's delay component plays no
role (it is existentially ignored). -/
theorem is_enabled_with_binding_iff (net : CPN) (t : Transition) (M : Marking)
    (ctx : EvaluationContext) (b : Binding) :
    net.is_enabled t M ctx (some b) = .ok true ↔
      (ctx.evaluate_guard t.guard_expr b = .ok true ∧
       ∀ a ∈ net.get_input_arcs t, ∃ vals dv,
         ctx.evaluate_arc a.expression b = .ok (vals, dv) ∧
         ∀ v ∈ vals, vals.count v ≤
           readyCount (M.get_multiset a.source.nodeName) M.global_clock v) := by
  show net.check_enabled_with_binding t M ctx b = .ok true ↔ _
  unfold CPN.check_enabled_with_binding
  cases hg : ctx.evaluate_guard t.guard_expr b with
  | error u =>
    dsimp only
    constructor
    · intro h; cases h
    · rintro ⟨hgt, -⟩; cases hgt
  | ok g =>
    cases g with
    | false =>
      dsimp only
      constructor
      · intro h; simp at h
      · rintro ⟨hgt, -⟩; simp at hgt
    | true =>
      dsimp only
      rw [if_neg (by simp), checkArcs_ok_true_iff]
      constructor
      · intro h; exact ⟨rfl, h⟩
      · intro h; exact h.2

/-- C2 witness: the witness net is enabled under `x = 12`, and its
guard evaluates to true there. -/
theorem is_enabled_with_binding_iff_witness :
    wnet.is_enabled wT wM0 wctx (some wb) = .ok true ∧
    wctx.evaluate_guard wT.guard_expr wb = .ok true :=
  ⟨rfl, ((is_enabled_with_binding_iff wnet wT wM0 wctx wb).mp rfl).1⟩

theorem countValue_retime (f : Int → Int) (m : MS) (v : Val) :
    countValue (retime f m) v = countValue m v := by
  induction m with
  | nil => rfl
  | cons tok rest ih =>
    simp only [retime, List.map_cons, countValue, List.filter_cons] at *
    by_cases h : tok.1 = v <;> simp [h, ih]

/-- C8: the multiset subset test succeeds exactly when every value has
at most as many instances on the left as on the right; and the test is
invariant under arbitrary reassignment of all timestamps, so the
tokens' timestamps play no role. -/
theorem msLe_iff (m1 m2 : MS) :
    (msLe m1 m2 = true ↔ ∀ v : Val, countValue m1 v ≤ countValue m2 v) ∧
    (∀ f g : Int → Int, msLe (retime f m1) (retime g m2) = msLe m1 m2) := by
  constructor
  · unfold msLe
    rw [List.all_eq_true]
    constructor
    · intro h v
      by_cases hv : v ∈ m1.map (fun tok => tok.1)
      · exact of_decide_eq_true (h v hv)
      · have h0 : countValue m1 v = 0 := by
          unfold countValue
          rw [List.length_eq_zero, List.filter_eq_nil_iff]
          intro tok htok
          simp only [decide_eq_true_eq]
          intro hveq
          exact hv (List.mem_map.mpr ⟨tok, htok, hveq⟩)
        rw [h0]; exact Nat.zero_le _
    · intro h v _hv; exact decide_eq_true (h v)
  · intro f g
    unfold msLe
    have hmap : (retime f m1).map (fun tok => tok.1) = m1.map (fun tok => tok.1) := by
      unfold retime; rw [List.map_map]; rfl
    have hP : (fun v => decide (countValue (retime f m1) v ≤ countValue (retime g m2) v)) =
        (fun v => decide (countValue m1 v ≤ countValue m2 v)) := by
      funext v
      rw [countValue_retime, countValue_retime]
    rw [hmap, hP]

/-- C8 witness: a concrete subset comparison together with the count
inequality the characterization yields for it. -/
theorem msLe_iff_witness :
    msLe [(Val.vint 1, 0)] [(Val.vint 1, 5), (Val.vint 2, 0)] = true ∧
    countValue [(Val.vint 1, 0)] (Val.vint 1) ≤
      countValue [(Val.vint 1, 5), (Val.vint 2, 0)] (Val.vint 1) :=
  ⟨rfl, (msLe_iff [(Val.vint 1, 0)] [(Val.vint 1, 5), (Val.vint 2, 0)]).1.mp rfl (Val.vint 1)⟩

theorem foldl_min_le_init : ∀ (l : List Int) (a : Int), l.foldl min a ≤ a := by
  intro l
  induction l with
  | nil => intro a; exact le_refl a
  | cons h t ih => intro a; exact le_trans (ih (min a h)) (min_le_left a h)

theorem foldl_min_le_mem : ∀ (l : List Int) (a x : Int), x ∈ l → l.foldl min a ≤ x := by
  intro l
  induction l with
  | nil => intro a x hx; cases hx
  | cons h t ih =>
    intro a x hx
    rcases List.mem_cons.mp hx with rfl | hx
    · exact le_trans (foldl_min_le_init t (min a x)) (min_le_right a x)
    · exact ih (min a h) x hx

theorem foldl_min_cases : ∀ (l : List Int) (a : Int), l.foldl min a = a ∨ l.foldl min a ∈ l := by
  intro l
  induction l with
  | nil => intro a; exact Or.inl rfl
  | cons h t ih =>
    intro a
    rcases ih (min a h) with heq | hm
    · rcases min_choice a h with hc | hc
      · left; rw [List.foldl_cons, heq, hc]
      · right; rw [List.foldl_cons, heq, hc]; exact List.mem_cons_self _ _
    · right; exact List.mem_cons_of_mem _ hm

theorem flatMap_filter {α β : Type} (f : α → List β) (p : β → Bool) :
    ∀ l : List α, l.flatMap (fun x => (f x).filter p) = (l.flatMap f).filter p := by
  intro l
  induction l with
  | nil => rfl
  | cons x xs ih => simp [List.flatMap_cons, List.filter_append, ih]

/-- C5: `advance_global_clock` never lowers the clock; it leaves the
marking unchanged when no token is strictly later than the clock; the
new clock is at most every token timestamp strictly above the old
clock; whenever it moves the clock, the new value is a token timestamp
strictly above the old clock; no token lies strictly between the old
and the new clock; and — progress — whenever some token timestamp is
strictly above the old clock, the clock strictly increases to a token
timestamp, which with the upper bound makes the new clock exactly the
smallest token timestamp strictly greater than the old one. -/
theorem advance_global_clock_spec (M : Marking) :
    M.global_clock ≤ (advance_global_clock M).global_clock ∧
    ((∀ tok ∈ M.tokensOf, tok.2 ≤ M.global_clock) → advance_global_clock M = M) ∧
    (∀ tok ∈ M.tokensOf, M.global_clock < tok.2 →
      (advance_global_clock M).global_clock ≤ tok.2) ∧
    ((advance_global_clock M).global_clock ≠ M.global_clock →
      ∃ tok ∈ M.tokensOf, M.global_clock < tok.2 ∧
        tok.2 = (advance_global_clock M).global_clock) ∧
    (∀ tok ∈ M.tokensOf, ¬(M.global_clock < tok.2 ∧
      tok.2 < (advance_global_clock M).global_clock)) ∧
    ((∃ tok ∈ M.tokensOf, M.global_clock < tok.2) →
      M.global_clock < (advance_global_clock M).global_clock ∧
      ∃ tok ∈ M.tokensOf, tok.2 = (advance_global_clock M).global_clock) := by
  have hmem : ∀ x : Int,
      x ∈ (M.marking.flatMap (fun pe =>
        pe.2.filter (fun tok => decide (M.global_clock < tok.2)))).map (fun tok => tok.2) ↔
      ∃ tok ∈ M.tokensOf, M.global_clock < tok.2 ∧ tok.2 = x := by
    intro x
    rw [flatMap_filter (fun pe : String × MS => pe.2)
      (fun tok => decide (M.global_clock < tok.2)) M.marking]
    constructor
    · intro hx
      obtain ⟨tok, htok, rfl⟩ := List.mem_map.mp hx
      obtain ⟨htok1, htok2⟩ := List.mem_filter.mp htok
      exact ⟨tok, htok1, of_decide_eq_true htok2, rfl⟩
    · rintro ⟨tok, htok, hlt, rfl⟩
      exact List.mem_map.mpr ⟨tok, List.mem_filter.mpr ⟨htok, decide_eq_true hlt⟩, rfl⟩
  cases hfut : (M.marking.flatMap (fun pe =>
      pe.2.filter (fun tok => decide (M.global_clock < tok.2)))).map (fun tok => tok.2) with
  | nil =>
    have hadv : advance_global_clock M = M := by
      unfold advance_global_clock
      rw [hfut]
    refine ⟨le_of_eq (by rw [hadv]), fun _ => hadv, ?_, ?_, ?_, ?_⟩
    · intro tok htok hlt
      have := (hmem tok.2).mpr ⟨tok, htok, hlt, rfl⟩
      rw [hfut] at this
      cases this
    · intro hne
      exact absurd (by rw [hadv]) hne
    · rintro tok htok ⟨hlt, -⟩
      have := (hmem tok.2).mpr ⟨tok, htok, hlt, rfl⟩
      rw [hfut] at this
      cases this
    · rintro ⟨tok, htok, hlt⟩
      have := (hmem tok.2).mpr ⟨tok, htok, hlt, rfl⟩
      rw [hfut] at this
      cases this
  | cons h rest =>
    have hadv : advance_global_clock M = { M with global_clock := rest.foldl min h } := by
      unfold advance_global_clock
      rw [hfut]
    have hminmem : rest.foldl min h ∈ h :: rest := by
      rcases foldl_min_cases rest h with heq | hm
      · rw [heq]; exact List.mem_cons_self _ _
      · exact List.mem_cons_of_mem _ hm
    obtain ⟨tmin, htmin, htminlt, htmineq⟩ :
        ∃ tok ∈ M.tokensOf, M.global_clock < tok.2 ∧ tok.2 = rest.foldl min h :=
      (hmem _).mp (by rw [hfut]; exact hminmem)
    have hlow : M.global_clock < rest.foldl min h := htmineq ▸ htminlt
    have hub : ∀ tok ∈ M.tokensOf, M.global_clock < tok.2 → rest.foldl min h ≤ tok.2 := by
      intro tok htok hlt
      have hin : tok.2 ∈ h :: rest := by
        rw [← hfut]
        exact (hmem tok.2).mpr ⟨tok, htok, hlt, rfl⟩
      rcases List.mem_cons.mp hin with heq | hm
      · rw [heq]; exact foldl_min_le_init rest h
      · exact foldl_min_le_mem rest h tok.2 hm
    rw [hadv]
    refine ⟨le_of_lt hlow, ?_, hub, ?_, ?_, ?_⟩
    · intro hall
      exact absurd htminlt (not_lt.mpr (hall tmin htmin))
    · intro _
      exact ⟨tmin, htmin, htminlt, htmineq⟩
    · rintro tok htok ⟨hlt, hlt2⟩
      exact absurd (hub tok htok hlt) (not_le.mpr hlt2)
    · intro _
      exact ⟨hlow, tmin, htmin, htmineq⟩

/-- C5 witness: with tokens at timestamps 3 and 9 and clock 0, the
advanced clock is bounded by the future timestamp 9 (minimality
conjunct) and strictly exceeds the old clock (progress conjunct), both
discharged at concrete tokens. -/
theorem advance_global_clock_spec_witness :
    ((Val.vint 0, (9 : Int)) ∈
      (Marking.mk [("P", [(Val.vint 0, 3), (Val.vint 0, 9)])] 0).tokensOf) ∧
    ((Marking.mk [("P", [(Val.vint 0, 3), (Val.vint 0, 9)])] 0).global_clock < 9) ∧
    ((advance_global_clock
        (Marking.mk [("P", [(Val.vint 0, 3), (Val.vint 0, 9)])] 0)).global_clock ≤ 9) ∧
    ((Marking.mk [("P", [(Val.vint 0, 3), (Val.vint 0, 9)])] 0).global_clock <
      (advance_global_clock
        (Marking.mk [("P", [(Val.vint 0, 3), (Val.vint 0, 9)])] 0)).global_clock) :=
  ⟨by decide, by decide,
   (advance_global_clock_spec
      (Marking.mk [("P", [(Val.vint 0, 3), (Val.vint 0, 9)])] 0)).2.2.1
     (Val.vint 0, 9) (by decide) (by decide),
   ((advance_global_clock_spec
      (Marking.mk [("P", [(Val.vint 0, 3), (Val.vint 0, 9)])] 0)).2.2.2.2.2
     ⟨(Val.vint 0, 9), by decide, by decide⟩).1⟩

theorem pySplitAtPlus_ne_nil : ∀ cs : List Char, pySplitAtPlus cs ≠ [] := by
  intro cs
  induction cs using pySplitAtPlus.induct with
  | case1 => simp [pySplitAtPlus]
  | case2 c => simp [pySplitAtPlus]
  | case3 c c2 rest hsep ih =>
    simp only [pySplitAtPlus, if_pos hsep]
    simp
  | case4 c c2 rest hsep hnil ih =>
    simp only [pySplitAtPlus, if_neg hsep, hnil]
    simp
  | case5 c c2 rest hsep s ss heq ih =>
    simp only [pySplitAtPlus, if_neg hsep, heq]
    simp

theorem pySplitAtPlus_no_occ : ∀ cs : List Char, hasAtPlus cs = false →
    pySplitAtPlus cs = [cs] := by
  intro cs
  induction cs using pySplitAtPlus.induct with
  | case1 => intro _; rfl
  | case2 c => intro _; rfl
  | case3 c c2 rest hsep ih =>
    intro h
    simp [hasAtPlus, hsep.1, hsep.2] at h
  | case4 c c2 rest hsep hnil ih =>
    intro h
    simp only [hasAtPlus, Bool.or_eq_false_iff] at h
    rw [ih h.2] at hnil
    cases hnil
  | case5 c c2 rest hsep s ss heq ih =>
    intro h
    simp only [hasAtPlus, Bool.or_eq_false_iff] at h
    have ihr := ih h.2
    simp only [pySplitAtPlus, if_neg hsep, ihr]

theorem pySplitAtPlus_append (r : List Char) :
    ∀ l : List Char, hasAtPlus l = false →
      pySplitAtPlus (l ++ '@' :: '+' :: r) = l :: pySplitAtPlus r := by
  intro l
  induction l using pySplitAtPlus.induct with
  | case1 =>
    intro _
    simp [pySplitAtPlus]
  | case2 c =>
    intro _
    have hc2 : ¬(c = '@' ∧ ('@' : Char) = '+') := fun hc => absurd hc.2 (by decide)
    simp only [List.singleton_append, pySplitAtPlus, if_neg hc2]
    simp [pySplitAtPlus]
  | case3 c c2 rest hsep ih =>
    intro h
    simp [hasAtPlus, hsep.1, hsep.2] at h
  | case4 c c2 rest hsep hnil ih =>
    intro _
    exact absurd hnil (pySplitAtPlus_ne_nil _)
  | case5 c c2 rest hsep s ss heq ih =>
    intro h
    simp only [hasAtPlus, Bool.or_eq_false_iff] at h
    have hrec := ih h.2
    simp only [List.cons_append] at hrec ⊢
    simp only [pySplitAtPlus, if_neg hsep, hrec]

/-- C7 (amended): `evaluate_arc` splits the expression textually at
every occurrence of `"@+"`.  When the expression contains no
occurrence, the whole string evaluates to the values and the delay is
the integer 0.  Otherwise the text before the first occurrence
(stripped) evaluates to the values — a non-list result is wrapped in a
one-element list — and the segment strictly between the first
occurrence and the next one (the whole remainder when the occurrence
is unique), stripped, evaluates to the delay.  (The original claim's
"the part to its right evaluates to the delay" fails when a second
occurrence exists — see the counterexample.) -/
theorem evaluate_arc_split_characterization (ctx : EvaluationContext) (b : Binding)
    (l r : List Char) (hno : hasAtPlus l = false) :
    (ctx.evaluate_arc ⟨l⟩ b =
       match ctx.peval ⟨l⟩ b with
       | .error u => .error u
       | .ok v => .ok (listify v, .single (Val.vint 0))) ∧
    (ctx.evaluate_arc ⟨l ++ '@' :: '+' :: r⟩ b =
       match ctx.peval (pyStrip ⟨l⟩) b with
       | .error u => .error u
       | .ok v =>
         match ctx.peval (pyStrip ⟨(pySplitAtPlus r).headI⟩) b with
         | .error u => .error u
         | .ok dv => .ok (listify v, dv)) := by
  constructor
  · unfold EvaluationContext.evaluate_arc
    rw [show (String.mk l).data = l from rfl, pySplitAtPlus_no_occ l hno]
  · unfold EvaluationContext.evaluate_arc
    rw [show (String.mk (l ++ '@' :: '+' :: r)).data = l ++ '@' :: '+' :: r from rfl,
      pySplitAtPlus_append r l hno]
    cases hr : pySplitAtPlus r with
    | nil => exact absurd hr (pySplitAtPlus_ne_nil r)
    | cons d ds => rfl

/-- C7 witness: with one separator occurrence, `x@+1` evaluates to the
values of `x` and the delay of `1`. -/
theorem evaluate_arc_split_characterization_witness :
    hasAtPlus ['x'] = false ∧
    c7ctx.evaluate_arc ⟨'x' :: '@' :: '+' :: ['1']⟩ [] =
      .ok ([Val.vint 7], .single (Val.vint 1)) :=
  ⟨rfl, (evaluate_arc_split_characterization c7ctx [] ['x'] ['1'] rfl).2⟩

/-- C7 counterexample: on `x @+ 1 @+ 2` the implementation evaluates
only the segment `1` between the two separator occurrences as the
delay and succeeds, whereas evaluating the whole part to the right of
the first occurrence — `1 @+ 2`, as the claim reads — raises (it is
not a Python expression): the two behaviours disagree on this input. -/
theorem evaluate_arc_right_part_cex :
    c7ctx.evaluate_arc "x @+ 1 @+ 2" [] = .ok ([Val.vint 7], .single (Val.vint 1)) ∧
    evaluate_arc_first_split c7ctx "x @+ 1 @+ 2" [] = .error () :=
  ⟨rfl, rfl⟩

theorem pyListRemove_cons_perm : ∀ (m : MS) (x : Token), x ∈ m →
    m.Perm (x :: pyListRemove m x) := by
  intro m
  induction m with
  | nil => intro x hx; cases hx
  | cons tok rest ih =>
    intro x hx
    by_cases htr : tok = x
    · subst htr
      simp [pyListRemove]
    · have hxr : x ∈ rest := by
        rcases List.mem_cons.mp hx with heq | hxr
        · exact absurd heq.symm htr
        · exact hxr
      simp only [pyListRemove, if_neg htr]
      exact ((ih x hxr).cons tok).trans (List.Perm.swap x tok (pyListRemove rest x))

theorem perm_foldl_pyListRemove :
    ∀ (S m : MS), S.Subperm m →
      m.Perm ((S.foldl (fun acc y => pyListRemove acc y) m) ++ S) := by
  intro S
  induction S with
  | nil => intro m _; simp
  | cons x S ih =>
    intro m hsub
    have hx : x ∈ m := hsub.subset (List.mem_cons_self x S)
    have hm : m.Perm (x :: pyListRemove m x) := pyListRemove_cons_perm m x hx
    have hsub2 : S.Subperm (pyListRemove m x) :=
      (List.subperm_cons x).mp (hsub.trans hm.subperm)
    have ihr := ih (pyListRemove m x) hsub2
    show m.Perm ((S.foldl (fun acc y => pyListRemove acc y) (pyListRemove m x)) ++ (x :: S))
    exact hm.trans ((ihr.cons x).trans List.perm_middle.symm)

theorem msRemove_eq_error (m : MS) (v : Val) (j : Nat)
    (hlt : (m.filter (fun tok => decide (tok.1 = v))).length < j) :
    msRemove m v j = .error () := by
  unfold msRemove
  dsimp only
  rw [if_pos hlt]

theorem msRemove_eq_ok (m : MS) (v : Val) (j : Nat)
    (hj : j ≤ (m.filter (fun tok => decide (tok.1 = v))).length) :
    msRemove m v j = .ok ((((m.filter (fun tok => decide (tok.1 = v))).insertionSort
      tsGE).take j).foldl (fun acc tr => pyListRemove acc tr) m) := by
  unfold msRemove
  dsimp only
  rw [if_neg (not_lt.mpr hj)]

theorem remove_take_spec (m : MS) (P : Token → Bool) (j : Nat)
    (hj : j ≤ (m.filter P).length) :
    ∀ sorted S m', sorted = (m.filter P).insertionSort tsGE → S = sorted.take j →
      m' = S.foldl (fun acc tr => pyListRemove acc tr) m →
      S.length = j ∧ (∀ x ∈ S, P x = true) ∧ m.Perm (m' ++ S) ∧
        (∀ x ∈ m', P x = true → ∀ y ∈ S, x.2 ≤ y.2) := by
  intro sorted S m' hsorted hS hm'
  have hperm_sort : sorted.Perm (m.filter P) := by
    rw [hsorted]; exact List.perm_insertionSort tsGE (m.filter P)
  have hsorted_pw : List.Pairwise tsGE sorted := by
    rw [hsorted]; exact List.sorted_insertionSort tsGE (m.filter P)
  have hlenS : S.length = j := by
    rw [hS, List.length_take, hperm_sort.length_eq]
    exact min_eq_left hj
  have hSsub : S.Sublist sorted := by rw [hS]; exact List.take_sublist j sorted
  have hsubm : S.Subperm m :=
    (hSsub.subperm.trans hperm_sort.subperm).trans (List.filter_sublist m).subperm
  have hallP : ∀ x ∈ S, P x = true := fun x hx =>
    (List.mem_filter.mp (hperm_sort.subset (hSsub.subset hx))).2
  have hperm : m.Perm (m' ++ S) := by
    rw [hm']; exact perm_foldl_pyListRemove S m hsubm
  refine ⟨hlenS, hallP, hperm, ?_⟩
  intro x hxm' hxP y hyS
  have hfperm : (m.filter P).Perm ((m'.filter P) ++ S) := by
    have h1 := hperm.filter P
    rwa [List.filter_append, List.filter_eq_self.mpr hallP] at h1
  have hsplit : sorted = S ++ sorted.drop j := by rw [hS, List.take_append_drop]
  have hcancel : (m'.filter P).Perm (sorted.drop j) := by
    have hchain : (S ++ m'.filter P).Perm sorted :=
      List.perm_append_comm.trans (hfperm.symm.trans hperm_sort.symm)
    rw [hsplit] at hchain
    exact (List.perm_append_left_iff S).mp hchain
  have hxdrop : x ∈ sorted.drop j := hcancel.subset (List.mem_filter.mpr ⟨hxm', hxP⟩)
  have hpw2 : List.Pairwise tsGE (S ++ sorted.drop j) := by rw [← hsplit]; exact hsorted_pw
  exact (List.pairwise_append.mp hpw2).2.2 y hyS x hxdrop

/-- C4: `Multiset.remove` fails without effect when fewer than `j`
matching instances exist; otherwise it succeeds and deletes exactly `j`
instances of the value — every deleted instance carries a timestamp at
least as large as that of every remaining instance of the value, so the
largest-timestamp instances go first — and every other token instance
stays (the result plus the removed instances is a permutation of the
original). -/
theorem msRemove_spec (m : MS) (v : Val) (j : Nat) :
    ((m.filter (fun tok => decide (tok.1 = v))).length < j → msRemove m v j = .error ()) ∧
    (j ≤ (m.filter (fun tok => decide (tok.1 = v))).length →
      ∃ m' removed, msRemove m v j = .ok m' ∧
        removed.length = j ∧
        (∀ x ∈ removed, x.1 = v) ∧
        m.Perm (m' ++ removed) ∧
        (∀ x ∈ m', x.1 = v → ∀ y ∈ removed, x.2 ≤ y.2)) := by
  constructor
  · exact msRemove_eq_error m v j
  · intro hj
    obtain ⟨hlen, hallP, hperm, hdom⟩ :=
      remove_take_spec m (fun tok => decide (tok.1 = v)) j hj _ _ _ rfl rfl rfl
    refine ⟨_, _, msRemove_eq_ok m v j hj, hlen, ?_, hperm, ?_⟩
    · intro x hx
      exact of_decide_eq_true (hallP x hx)
    · intro x hxm' hxv y hyS
      exact hdom x hxm' (decide_eq_true hxv) y hyS

/-- C4 witness: removing five instances from a multiset holding only
one fails, via the underflow conjunct at a concrete input. -/
theorem msRemove_spec_witness :
    (([(Val.vint 1, 0)] : MS).filter (fun tok => decide (tok.1 = Val.vint 1))).length < 5 ∧
    msRemove [(Val.vint 1, 0)] (Val.vint 1) 5 = .error () :=
  ⟨by decide, (msRemove_spec [(Val.vint 1, 0)] (Val.vint 1) 5).1 (by decide)⟩

theorem pyAsIntD_of_ok (dv : EvalResult) (d : Int) :
    pyAsInt dv = .ok d → pyAsIntD dv = d := by
  intro h
  cases dv with
  | single v =>
    cases v with
    | vint n => cases h; rfl
    | vbool bb => cases h; rfl
    | vstr s => cases h
    | vpair a c => cases h
  | list l => cases h

theorem produceForValues_ok_get (tdelay : Int) (dv : EvalResult) (pl : Place) :
    ∀ (vs : List Val) (M M' : Marking), produceForValues tdelay dv pl M vs = .ok M' →
      ∀ q, M'.get_multiset q = M.get_multiset q ++
        (if pl.name = q then vs.map (fun v => (v,
          if pl.colorset.timed then M.global_clock + tdelay + pyAsIntD dv else 0)) else []) := by
  intro vs
  induction vs with
  | nil =>
    intro M M' h q
    cases h
    by_cases hq : pl.name = q <;> simp [hq]
  | cons v vs ih =>
    intro M M' h q
    simp only [produceForValues] at h
    cases hd : pyAsInt dv with
    | error u => simp [hd] at h
    | ok d =>
      simp only [hd] at h
      have hdd : pyAsIntD dv = d := pyAsIntD_of_ok dv d hd
      have ihq := ih _ _ h q
      rw [ihq, get_multiset_add_tokens]
      by_cases hq : pl.name = q
      · simp only [hq, if_true, hdd, List.map_cons, List.append_assoc, List.singleton_append]
        exact congrArg (fun z => M.get_multiset q ++ ((v, z) :: List.map _ vs)) rfl
      · simp [hq]

theorem produceArcs_ok_get (ctx : EvaluationContext) (b : Binding) (tdelay : Int) :
    ∀ (arcs : List Arc) (M M' : Marking), produceArcs ctx b tdelay M arcs = .ok M' →
      ∀ q, M'.get_multiset q = M.get_multiset q ++ arcs.flatMap (fun a =>
        match ctx.evaluate_arc a.expression b with
        | .error _ => []
        | .ok (vals, dv) =>
          if a.target.asPlace.name = q then
            vals.map (fun v => (v, if a.target.asPlace.colorset.timed then
              M.global_clock + tdelay + pyAsIntD dv else 0))
          else []) := by
  intro arcs
  induction arcs with
  | nil => intro M M' h q; cases h; simp
  | cons a rest ih =>
    intro M M' h q
    simp only [produceArcs] at h
    cases he : ctx.evaluate_arc a.expression b with
    | error u => simp [he] at h
    | ok vd =>
      obtain ⟨vals, dv⟩ := vd
      simp only [he] at h
      cases hp : produceForValues tdelay dv a.target.asPlace M vals with
      | error e => simp [hp] at h
      | ok M1 =>
        simp only [hp] at h
        have h1 := produceForValues_ok_get tdelay dv a.target.asPlace vals M M1 hp q
        have h2 := ih M1 M' h q
        have hclk : M1.global_clock = M.global_clock :=
          produceForValues_ok_clock tdelay dv a.target.asPlace vals M M1 hp
        rw [hclk, h1] at h2
        simp only [List.flatMap_cons, he]
        rw [h2, List.append_assoc]

/-- C3: a successful firing appends to each place, after the consume
phase, exactly the tokens of the output arcs targeting it, each token
carrying timestamp `global_clock + transition_delay + arc_delay` when
the place's color set is timed and `0` otherwise; the consume phase
does not move the clock. -/
theorem fire_timed_production (net : CPN) (t : Transition) (M : Marking)
    (ctx : EvaluationContext) (b : Binding) (M' Mc : Marking)
    (hf : net.fire_with_binding t M ctx b = .ok M')
    (hc : consumeArcs ctx b M (net.get_input_arcs t) = .ok Mc) :
    Mc.global_clock = M.global_clock ∧
    ∀ q, M'.get_multiset q = Mc.get_multiset q ++ (net.get_output_arcs t).flatMap (fun a =>
      match ctx.evaluate_arc a.expression b with
      | .error _ => []
      | .ok (vals, dv) =>
        if a.target.asPlace.name = q then
          vals.map (fun v => (v, if a.target.asPlace.colorset.timed then
            M.global_clock + t.transition_delay + pyAsIntD dv else 0))
        else []) := by
  have hclk : Mc.global_clock = M.global_clock :=
    consumeArcs_ok_clock ctx b (net.get_input_arcs t) M Mc hc
  refine ⟨hclk, ?_⟩
  intro q
  unfold CPN.fire_with_binding at hf
  cases hcheck : net.check_enabled_with_binding t M ctx b with
  | error u => simp [hcheck] at hf
  | ok g =>
    cases g with
    | false => simp [hcheck] at hf
    | true =>
      simp only [hcheck] at hf
      simp only [hc] at hf
      have := produceArcs_ok_get ctx b t.transition_delay (net.get_output_arcs t) Mc M' hf q
      rw [this, hclk]

/-- C3 witness: firing the witness net under `x = 12` appends to the
timed place `Q` one token with timestamp `0 + 2 + 5 = 7`. -/
theorem fire_timed_production_witness :
    wnet.fire_with_binding wT wM0 wctx wb = .ok wM1 ∧
    consumeArcs wctx wb wM0 (wnet.get_input_arcs wT) = .ok wMc ∧
    wM1.get_multiset "Q" = wMc.get_multiset "Q" ++ [(Val.vint 12, 7)] :=
  ⟨rfl, rfl, (fire_timed_production wnet wT wM0 wctx wb wM1 wMc rfl rfl).2 "Q"⟩

/-- C6 counterexample: building the reachability graph of the S5 net
(places `P1`, `P2`; transition `T` with guard `x < 5`; arcs `x` and
`x+1`; initial marking `P1 = [0,1,2,3,4]`) under the default
equivalences terminates and yields 32 nodes, not 6: every subset of
the five tokens can have been consumed, and each such marking has a
distinct default key. -/
theorem s5_reachability_six_nodes_cex :
    (s5graph.map fun g => g.nodes.length) = some 32 ∧
    (s5graph.map fun g => g.nodes.length) ≠ some 6 := by
  have h32 : (s5graph.map fun g => g.nodes.length) = some 32 := rfl
  refine ⟨h32, ?_⟩
  rw [h32]
  decide

/-- C6 (amended): the S5 reachability graph under the default marking
equivalence has exactly 32 nodes (one per subset of consumed initial
tokens), and every edge carries a binding key binding `x` to one of
the integers 0 through 4. -/
theorem s5_reachability_amended :
    (s5graph.map fun g => g.nodes.length) = some 32 ∧
    (s5graph.map fun g => g.edges.all (fun e =>
      e.2.2.2 = [("x", Val.vint 0)] || e.2.2.2 = [("x", Val.vint 1)] ||
      e.2.2.2 = [("x", Val.vint 2)] || e.2.2.2 = [("x", Val.vint 3)] ||
      e.2.2.2 = [("x", Val.vint 4)])) = some true :=
  ⟨rfl, rfl⟩
